import Mathlib

/-!
Shallow embedding of the rule-based price-bulletin parser (`src/main.py`):
the data model (`PriceRow`), the commodity-name normalizer
(`normalize_commodity_name`), the per-row parser (`parse_smart_row` with
`determine_origin` / `determine_unit`), and the line loop with category
tracking, noise filtering, market-block extraction and deduplication
(`parse_text_to_json`).

Python strings are modelled as `List Char` (or Lean `String`, whose length
counts characters, as Python `len` does).  Prices carry exactly two fraction
digits in the source format (`\d{1,3}(?:,\d{3})*\.\d{2}`), so the value
`float(price_str)` is represented exactly by its number of centavos
(`Option Nat`); the sentinel tokens map to `none`, and a failed conversion
is `none` as well, mirroring the `try/except: pass` around `float`.

The Python regexes are embedded as explicit character-level matchers; each
matcher's doc comment records the regex it implements and the leftmost-match
/ greediness reasoning that justifies the deterministic implementation.
-/

set_option maxHeartbeats 1600000

namespace DAPriceParser

/-- Python whitespace for `str.strip` / `str.split()` / regex `\s`
(ASCII subset: the document text is ASCII). -/
def pyIsSpace (c : Char) : Bool :=
  c = ' ' || c = '\t' || c = '\n' || c = '\r' || c = '\x0b' || c = '\x0c'

/-- Python `str.strip()`: drop whitespace from both ends. -/
def stripL (l : List Char) : List Char :=
  List.rdropWhile pyIsSpace (List.dropWhile pyIsSpace l)

/-- Python `str.upper()` (ASCII inputs). -/
def upperL (l : List Char) : List Char := l.map Char.toUpper

/-- Python `str.lower()` (ASCII inputs). -/
def lowerL (l : List Char) : List Char := l.map Char.toLower

/-- Python `needle in hay` on strings: substring containment. -/
def containsSub : List Char → List Char → Bool
  | [], needle => needle.isPrefixOf []
  | c :: t, needle => needle.isPrefixOf (c :: t) || containsSub t needle

/-- Case-insensitive `startswith`: used for `re.IGNORECASE` literal matches. -/
def startsWithCI (pre s : List Char) : Bool :=
  (s.take pre.length).map Char.toLower = pre.map Char.toLower

/-- Word accumulator for `pyWords` (`acc` holds the current word reversed). -/
def pyWordsAux : List Char → List Char → List (List Char)
  | acc, [] => if acc = [] then [] else [acc.reverse]
  | acc, c :: rest =>
    if pyIsSpace c then
      if acc = [] then pyWordsAux [] rest else acc.reverse :: pyWordsAux [] rest
    else pyWordsAux (c :: acc) rest

/-- Python `str.split()` (split on whitespace runs, dropping empties). -/
def pyWords (l : List Char) : List (List Char) := pyWordsAux [] l

/-- Python `" ".join(s.split())`: collapse whitespace runs to single spaces
and trim the ends. -/
def collapseWs (l : List Char) : List Char := List.intercalate [' '] (pyWords l)

/-- Character class of `re.sub(r'[\x00-\x1F\x7F-\x9F]', '', ...)`. -/
def isCtrl (c : Char) : Bool :=
  c.toNat ≤ 0x1F || (0x7F ≤ c.toNat && c.toNat ≤ 0x9F)

/-- Python `str.strip(chars)` (used with `" -,"`). -/
def stripCharsL (cs : List Char) (l : List Char) : List Char :=
  List.rdropWhile (· ∈ cs) (List.dropWhile (· ∈ cs) l)

/-- Embeds `re.sub(r'\((.*?)\)', '', name)` (the input has no newlines, so
the lazy `.*?` reaches the nearest `)`; with no closing paren after an
opening one no later match can start, so the rest is kept verbatim).
The flag records whether the scan sits inside a match being deleted. -/
def removeParensAux : Bool → List Char → List Char
  | _, [] => []
  | false, c :: rest =>
    if c = '(' && ')' ∈ rest then removeParensAux true rest
    else c :: removeParensAux false rest
  | true, c :: rest =>
    if c = ')' then removeParensAux false rest
    else removeParensAux true rest

/-- See `removeParensAux`. -/
def removeParens (l : List Char) : List Char := removeParensAux false l

/-- Python regex word character (`\w`, ASCII inputs). -/
def isWordChar (c : Char) : Bool := c.isAlphanum || c = '_'

/-- One pass of `re.sub(rf'\b{w}\b', '', s, flags=re.IGNORECASE)`:
scan left to right over the original characters, removing each
non-overlapping occurrence of `w` that sits between word boundaries;
`prev` is the original character just before the current position, and
`skip` counts characters of a matched occurrence still to be dropped
(no new match is attempted inside a match, as the regex scan resumes
after each match). -/
def removeWordScan (w : List Char) : Nat → Option Char → List Char → List Char
  | _, _, [] => []
  | k + 1, _, c :: rest => removeWordScan w k (some c) rest
  | 0, prev, c :: rest =>
    let prevOk := match prev with
      | none => true
      | some d => !isWordChar d
    let afterOk := match (c :: rest).drop w.length with
      | [] => true
      | d :: _ => !isWordChar d
    if w ≠ [] && prevOk && startsWithCI w (c :: rest) && afterOk then
      removeWordScan w (w.length - 1) (some c) rest
    else c :: removeWordScan w 0 (some c) rest

/-- The fixed brand/noise word list of `normalize_commodity_name`. -/
def removeWords : List String :=
  ["Magnolia", "Bounty Fresh", "Unbranded", "Fresh", "Fully Dressed",
   "Jolly Brand", "Jolly", "Palm Olein", "Spring", "Minola", "Brand",
   "Local", "Imported", "frozen", "chilled", "whole round", "medium",
   "large", "small", "lean meat", "tapadera", "meat with bones",
   "food grade", "feed grade"]

/-- Sequential application of the word removals (one `re.sub` per word). -/
def removeAllWords (l : List Char) : List Char :=
  removeWords.foldl (fun acc w => removeWordScan w.toList 0 none acc) l

/-- Unit keywords of the trailing unit-quantity pattern. -/
def unitWords : List String := ["pcs", "kg", "g", "ml", "liter", "bottle"]

/-- Whether `re.sub(r'\d+[-\s]*\d*\s*(pcs|kg|g|ml|liter|bottle).*', '', ...)`
matches at the head of `l`.  The character classes (digits, space/hyphen,
digits, space) are pairwise disjoint and none contains a letter, so greedy
runs are equivalent to the regex's backtracking search. -/
def unitPhraseAt (l : List Char) : Bool :=
  let d1 := l.takeWhile Char.isDigit
  if d1 = [] then false
  else
    let r1 := l.drop d1.length
    let sp1 := r1.takeWhile (fun c => pyIsSpace c || c = '-')
    let r2 := r1.drop sp1.length
    let d2 := r2.takeWhile Char.isDigit
    let r3 := r2.drop d2.length
    let sp2 := r3.takeWhile pyIsSpace
    let r4 := r3.drop sp2.length
    unitWords.any (fun u => startsWithCI u.toList r4)

/-- The unit-suffix removal: the trailing `.*` (no newlines present) eats
to the end of the string, so the leftmost match truncates the string. -/
def stripUnitSuffix : List Char → List Char
  | [] => []
  | c :: rest => if unitPhraseAt (c :: rest) then [] else c :: stripUnitSuffix rest

/-- Embedding of `normalize_commodity_name(raw_name, category)`:
the category-gated rule cascade followed by the generic fallback cleaning.
A `some` result of a rule block is a `return` in the Python source; `none`
falls through to the next block, exactly as the sequential `if`s do. -/
def normalize_commodity_name (rawName category : String) : String :=
  let nameClean := collapseWs (rawName.toList.filter (fun c => !isCtrl c))
  let un := upperL nameClean
  let uc := upperL category.toList
  let corn : Option String :=
    if containsSub uc "CORN".toList then
      let grits : Option String :=
        if containsSub un "GRITS".toList then
          if containsSub un "WHITE".toList then some "Corn Grits White"
          else if containsSub un "YELLOW".toList then some "Corn Grits Yellow"
          else if containsSub un "FEED GRADE".toList then some "Corn Grits Feed Grade"
          else none
        else none
      match grits with
      | some r => some r
      | none =>
        if containsSub un "CRACKED".toList then some "Corn Cracked Yellow"
        else if containsSub un "COB".toList then
          if containsSub un "WHITE".toList || containsSub un "GLUTINOUS".toList then
            some "Corn Cob White"
          else if containsSub un "YELLOW".toList || containsSub un "SWEET".toList then
            some "Corn Cob Yellow"
          else none
        else none
    else none
  match corn with
  | some r => r
  | none =>
  let rice : Option String :=
    if containsSub uc "RICE".toList then
      if containsSub un "SPECIAL".toList then some "Special White Rice"
      else if containsSub un "PREMIUM".toList then some "Premium Rice"
      else if containsSub un "WELL MILLED".toList then some "Well Milled Rice"
      else if containsSub un "REGULAR MILLED".toList then some "Regular Milled Rice"
      else if containsSub un "GLUTINOUS".toList then some "Glutinous Rice"
      else if containsSub un "JASPONICA".toList || containsSub un "JAPONICA".toList then
        some "Jasponica Rice"
      else if containsSub un "BASMATI".toList then some "Basmati Rice"
      else none
    else none
  match rice with
  | some r => r
  | none =>
  let veg : Option String :=
    if containsSub uc "VEGETABLES".toList || containsSub uc "SPICES".toList then
      let bp : Option String :=
        if containsSub un "BELL PEPPER".toList then
          if containsSub un "RED".toList then some "Bell Pepper Red"
          else if containsSub un "GREEN".toList then some "Bell Pepper Green"
          else none
        else none
      match bp with
      | some r => some r
      | none =>
      let cab : Option String :=
        if containsSub un "CABBAGE".toList then
          if containsSub un "SCORPIO".toList then some "Cabbage Scorpio"
          else if containsSub un "RARE BALL".toList then some "Cabbage Rare Ball"
          else if containsSub un "WONDER BALL".toList then some "Cabbage Wonder Ball"
          else none
        else none
      match cab with
      | some r => some r
      | none =>
      let oni : Option String :=
        if containsSub un "ONION".toList then
          if containsSub un "RED".toList then some "Red Onion"
          else if containsSub un "WHITE".toList then some "White Onion"
          else none
        else none
      match oni with
      | some r => some r
      | none =>
        if containsSub un "CHILLI".toList then
          if containsSub un "RED".toList || containsSub un "TINGALA".toList then
            some "Chilli Red"
          else if containsSub un "GREEN".toList || containsSub un "PANIGANG".toList then
            some "Chilli Green"
          else none
        else none
    else none
  match veg with
  | some r => r
  | none =>
  let fish : Option String :=
    if containsSub uc "FISH".toList then
      if containsSub un "BANGUS".toList then some "Bangus"
      else if containsSub un "TILAPIA".toList then some "Tilapia"
      else if containsSub un "GALUNGGONG".toList then some "Galunggong"
      else if containsSub un "ALUMAHAN".toList then some "Alumahan"
      else if containsSub un "SQUID".toList then some "Squid"
      else if containsSub un "SALMON BELLY".toList then some "Salmon Belly"
      else if containsSub un "SALMON HEAD".toList then some "Salmon Head"
      else if containsSub un "PAMPANO".toList then some "Pampano"
      else none
    else none
  match fish with
  | some r => r
  | none =>
  let meat : Option String :=
    if containsSub uc "MEAT".toList || containsSub uc "POULTRY".toList then
      if containsSub un "WHOLE CHICKEN".toList then some "Whole Chicken"
      else if containsSub un "CHICKEN EGG".toList then some "Chicken Egg"
      else if containsSub un "BEEF BRISKET".toList then some "Beef Brisket"
      else if containsSub un "PORK BELLY".toList then some "Pork Belly"
      else if containsSub un "PORK CHOP".toList then some "Pork Chop"
      else none
    else none
  match meat with
  | some r => r
  | none =>
  let other : Option String :=
    if containsSub uc "OTHER BASIC".toList then
      let oil : Option String :=
        if containsSub un "COOKING OIL".toList then
          if containsSub un "PALM".toList then some "Cooking Oil (Palm)"
          else if containsSub un "COCONUT".toList then some "Cooking Oil (Coconut)"
          else some "Cooking Oil"
        else none
      match oil with
      | some r => some r
      | none =>
      let sug : Option String :=
        if containsSub un "SUGAR".toList then
          if containsSub un "REFINED".toList then some "Sugar (Refined)"
          else if containsSub un "WASHED".toList then some "Sugar (Washed)"
          else if containsSub un "BROWN".toList then some "Sugar (Brown)"
          else none
        else none
      match sug with
      | some r => some r
      | none =>
        if containsSub un "SALT".toList then
          if containsSub un "IODIZED".toList then some "Salt (Iodized)"
          else if containsSub un "ROCK".toList then some "Salt (Rock)"
          else none
        else none
    else none
  match other with
  | some r => r
  | none =>
    let fb1 := removeParens nameClean
    let fb2 := removeAllWords fb1
    let fb3 := stripUnitSuffix fb2
    (stripCharsL [' ', '-', ','] (collapseWs fb3)).asString

/-- Embedding of `determine_origin(raw_line, category)`. -/
def determine_origin (rawLine category : String) : String :=
  if containsSub (upperL rawLine.toList) "IMPORTED".toList ||
     containsSub (upperL category.toList) "IMPORTED".toList then "Imported"
  else "Local"

/-- Embedding of `determine_unit(raw_line, category)`. -/
def determine_unit (rawLine category : String) : Option String :=
  let ll := lowerL rawLine.toList
  if containsSub ll "bottle".toList || containsSub ll "liter".toList ||
     containsSub ll "ml".toList then some "L"
  else if containsSub (lowerL category.toList) "egg".toList ||
          containsSub ll "pc".toList then some "pc"
  else if ["kg", "kilo", "broken", "meat", "fish", "vegetable", "fruit",
           "spice", "sugar", "salt", "corn"].any
            (fun x => containsSub ll x.toList) then some "kg"
  else none

/-- Whether `l` fully matches `\d{1,3}(?:,\d{3})*`: a leading run of one to
three digits followed by comma-separated groups of exactly three digits. -/
def tailGroups : List Char → Bool
  | [] => true
  | s :: a :: b :: c :: rest =>
    s = ',' && a.isDigit && b.isDigit && c.isDigit && tailGroups rest
  | _ => false

/-- See `tailGroups`. -/
def groupedDigits (l : List Char) : Bool :=
  let d := l.takeWhile Char.isDigit
  decide (1 ≤ d.length) && decide (d.length ≤ 3) && tailGroups (l.drop d.length)

/-- Whether `t` fully matches the numeric alternative
`\d{1,3}(?:,\d{3})*\.\d{2}` of the trailing-price pattern. -/
def isPriceNumToken (t : List Char) : Bool :=
  let ip := t.takeWhile (fun c => c.isDigit || c = ',')
  match t.drop ip.length with
  | [c, a, b] => c = '.' && a.isDigit && b.isDigit && groupedDigits ip
  | _ => false

/-- The two no-price sentinels of the trailing-price pattern. -/
def isSentinel (t : List Char) : Bool := t = ['-'] || t = "$n/a$".toList

/-- One alternative of the capture group of
`(?:^|\s)(\d{1,3}(?:,\d{3})*\.\d{2}|\$n/a\$|-)\s*$`, tried in regex order. -/
def isToken (t : List Char) : Bool :=
  isPriceNumToken t || t = "$n/a$".toList || t = ['-']

/-- Leftmost search of the trailing-price regex over the (already stripped)
line.  A stripped line has no trailing whitespace, so `\s*$` forces the
captured token to extend to the end of the line; the `(?:^|\s)` prefix means
the token starts at position 0 or right after a whitespace character.
Returns `(characters before the token, token)` for the leftmost valid start. -/
def findTok : Option Char → List Char → List Char →
    Option (List Char × List Char)
  | prev, acc, [] =>
    if (match prev with | none => true | some c => pyIsSpace c) && isToken [] then
      some (acc.reverse, [])
    else none
  | prev, acc, c :: r =>
    if (match prev with | none => true | some d => pyIsSpace d) &&
        isToken (c :: r) then
      some (acc.reverse, c :: r)
    else findTok (some c) (c :: acc) r

/-- Numeric value of a digit string. -/
def digitsToNat (l : List Char) : Nat :=
  l.foldl (fun n c => n * 10 + (c.toNat - '0'.toNat)) 0

/-- Conversion of the comma-stripped price token to centavos: the exact
value of Python's `float(price_str)` on the `\d+\.\d{2}` shapes the matcher
produces.  A shape mismatch yields `none`, mirroring the enclosing
`try/except: pass` which leaves `final_price = None` on failure. -/
def parseCents (l : List Char) : Option Nat :=
  let ip := l.takeWhile Char.isDigit
  match l.drop ip.length with
  | [c, a, b] =>
    if c = '.' && ip ≠ [] && a.isDigit && b.isDigit then
      some (digitsToNat ip * 100 + (a.toNat - '0'.toNat) * 10 + (b.toNat - '0'.toNat))
    else none
  | _ => none

/-- Python `str.replace(pat, "")` (all non-overlapping occurrences,
scanned left to right; `skip` counts characters of a matched occurrence
still to be dropped). -/
def removeSubstr (pat : List Char) : Nat → List Char → List Char
  | _, [] => []
  | k + 1, _ :: rest => removeSubstr pat k rest
  | 0, c :: rest =>
    if pat ≠ [] && pat.isPrefixOf (c :: rest) then
      removeSubstr pat (pat.length - 1) rest
    else c :: removeSubstr pat 0 rest

/-- The category cleanup of step 6 of `parse_smart_row`:
`category.replace("IMPORTED ", "").replace("LOCAL ", "").strip()`. -/
def cleanCategory (category : String) : String :=
  (stripL (removeSubstr "LOCAL ".toList 0
    (removeSubstr "IMPORTED ".toList 0 category.toList))).asString

/-- The `PriceRow` model (`origin` is always set by `parse_smart_row`, so it
is modelled as a plain `String`; `price` in centavos, see the header). -/
structure PriceRow where
  category : String
  commodity : String
  origin : String
  unit : Option String
  price : Option Nat
deriving DecidableEq, Repr

/-- The raw name segment of a line: the stripped text before the trailing
price token (empty when the line has no price token). -/
def rawNameOf (line : List Char) : String :=
  match findTok none [] (stripL line) with
  | none => ""
  | some (name, _) => (stripL name).asString

/-- Embedding of `parse_smart_row(line, current_category)`. -/
def parse_smart_row (line : List Char) (currentCategory : String) :
    Option PriceRow :=
  match findTok none [] (stripL line) with
  | none => none
  | some (namePart, tok) =>
    let priceStr := tok.filter (· ≠ ',')
    let rawNamePart := (stripL namePart).asString
    let origin := determine_origin rawNamePart currentCategory
    let cleanName := normalize_commodity_name rawNamePart currentCategory
    if cleanName.length < 2 then none
    else
      let unit := determine_unit rawNamePart currentCategory
      let finalPrice :=
        if priceStr = ['-'] || priceStr = "$n/a$".toList then none
        else parseCents priceStr
      some { category := cleanCategory currentCategory
             commodity := cleanName
             origin := origin
             unit := unit
             price := finalPrice }

/-- The fixed category vocabulary `KNOWN_CATEGORIES`. -/
def KNOWN_CATEGORIES : List String :=
  ["IMPORTED COMMERCIAL RICE", "LOCAL COMMERCIAL RICE", "CORN PRODUCTS",
   "FISH PRODUCTS", "BEEF MEAT PRODUCTS", "PORK MEAT PRODUCTS",
   "OTHER LIVESTOCK MEAT PRODUCTS", "POULTRY PRODUCTS",
   "LOWLAND VEGETABLES", "HIGHLAND VEGETABLES", "SPICES",
   "FRUITS", "OTHER BASIC COMMODITIES"]

/-- The noise markers dropped by the line loop (checked case-sensitively). -/
def noiseMarkers : List String :=
  ["Source:", "Note:", "Prevailing", "Retail Price", "Page", "Department of"]

/-- First category of the vocabulary contained in the uppercased line
(`for cat in KNOWN_CATEGORIES: if cat in line.upper(): ... break`). -/
def findCategory (line : List Char) : Option String :=
  KNOWN_CATEGORIES.find? (fun cat => containsSub (upperL line) cat.toList)

/-- Whether the line contains one of the noise markers
(`any(x in line for x in [...])`). -/
def isNoiseLine (line : List Char) : Bool :=
  noiseMarkers.any (fun x => containsSub line x.toList)

/-- Key compared by the duplicate check of `parse_text_to_json`. -/
def sameKey (a b : PriceRow) : Bool :=
  a.category = b.category && a.commodity = b.commodity && a.origin = b.origin

/-- The triple the deduplicator keys on. -/
def keyOf (r : PriceRow) : String × String × String :=
  (r.category, r.commodity, r.origin)

/-- The deduplication/merge step: scan the accepted rows for the first
`(category, commodity, origin)` match; on a match, fill in the existing
row's price only when it is absent and the new one present, and drop the
new row; otherwise append the new row at the end. -/
def mergeRow : List PriceRow → PriceRow → List PriceRow
  | [], row => [row]
  | e :: rest, row =>
    if sameKey e row then
      (if e.price = none ∧ row.price ≠ none then { e with price := row.price }
       else e) :: rest
    else e :: mergeRow rest row

/-- The mutable state of the line loop of `parse_text_to_json`. -/
structure ParseState where
  currentCategory : String
  rows : List PriceRow
deriving DecidableEq, Repr

/-- One iteration of the line loop of `parse_text_to_json`: strip the line,
skip empty lines, detect category headers, drop noise lines, and otherwise
parse and merge a data row when a category is established. -/
def processLine (st : ParseState) (rawLine : List Char) : ParseState :=
  if stripL rawLine = [] then st
  else
    match findCategory (stripL rawLine) with
    | some cat => { st with currentCategory := cat }
    | none =>
      if isNoiseLine (stripL rawLine) then st
      else if st.currentCategory ≠ "UNKNOWN" then
        match parse_smart_row (stripL rawLine) st.currentCategory with
        | some row => { st with rows := mergeRow st.rows row }
        | none => st
      else st

/-- The line loop as a fold. -/
def processLines (st : ParseState) (lines : List (List Char)) : ParseState :=
  lines.foldl processLine st

/-- Lazy body of `1\..+?` up to `(?:Page|\Z)` (DOTALL): everything after at
least one character, stopping before the first occurrence of `Page`
(case-insensitive) or at the end of the text. -/
def lazyTail : List Char → List Char
  | [] => []
  | c :: rest =>
    if startsWithCI "page".toList (c :: rest) then []
    else c :: lazyTail rest

/-- After one of the two opening markers matched: skip `\s*`, require the
literal `1.`, and capture `1\..+?` up to `Page` or the end of the text
(`.+?` needs at least one character, so an empty remainder fails). -/
def tryAfterMarker (after : List Char) : Option (List Char) :=
  let w := after.dropWhile pyIsSpace
  if startsWithCI "1.".toList w then
    match w.drop 2 with
    | [] => none
    | c :: rest => some (w.take 2 ++ (c :: lazyTail rest))
  else none

/-- Leftmost search of
`(?:d\)|Covered markets:)\s*(1\..+?)(?:Page|\Z)` (DOTALL, IGNORECASE):
the two opening markers start with different letters, so at each position
at most one alternative applies. -/
def findMarketBlock : List Char → Option (List Char)
  | [] => none
  | c :: rest =>
    let s := c :: rest
    let here :=
      if startsWithCI "d)".toList s then tryAfterMarker (s.drop 2)
      else if startsWithCI "covered markets:".toList s then
        tryAfterMarker (s.drop 16)
      else none
    match here with
    | some b => some b
    | none => findMarketBlock rest

/-- Whether the separator regex `\s*\d+\.\s*` of `re.split` matches at the
head of `l`; on a match, returns the remainder after the (greedy) match.
The match always consumes at least one digit and the dot. -/
def sepMatch (l : List Char) : Option (List Char) :=
  let w := l.dropWhile pyIsSpace
  let d := w.takeWhile Char.isDigit
  if d ≠ [] then
    match w.drop d.length with
    | c :: rest => if c = '.' then some (rest.dropWhile pyIsSpace) else none
    | [] => none
  else none

/-- `re.split(r'\s*\d+\.\s*', block)`: pieces between the leftmost
non-overlapping separator matches (`acc` holds the current piece reversed;
`skip` counts separator characters still to be consumed, during which no
new separator match is attempted, as the regex scan resumes after each
match; a separator match is a suffix of the scanned text, so skipping its
length lands exactly on the remainder `sepMatch` returned). -/
def splitMarkersAux : Nat → List Char → List Char → List (List Char)
  | _, acc, [] => [acc.reverse]
  | k + 1, acc, _ :: rest => splitMarkersAux k acc rest
  | 0, acc, c :: rest =>
    match sepMatch (c :: rest) with
    | some rem => acc.reverse :: splitMarkersAux (rest.length - rem.length) [] rest
    | none => splitMarkersAux 0 (c :: acc) rest

/-- See `splitMarkersAux`. -/
def splitMarkers (l : List Char) : List (List Char) := splitMarkersAux 0 [] l

/-- `list(dict.fromkeys(xs))`: remove exact duplicates, keeping the first
occurrence and the first-seen order (`seen` collects emitted names). -/
def dedupFirstAux : List String → List String → List String
  | _, [] => []
  | seen, x :: rest =>
    if x ∈ seen then dedupFirstAux seen rest
    else x :: dedupFirstAux (x :: seen) rest

/-- See `dedupFirstAux`. -/
def dedupFirst (l : List String) : List String := dedupFirstAux [] l

/-- The per-entry cleanup of the market comprehension:
`re.sub(r'[\n\r]', ' ', m).strip()`. -/
def cleanMarketEntry (m : List Char) : String :=
  (stripL (m.map (fun c => if c = '\n' ∨ c = '\r' then ' ' else c))).asString

/-- The market-extraction pass of `parse_text_to_json`: find the block,
split it on numeric list markers, keep fragments that are nonempty after
stripping and longer than 3 raw characters, clean each kept fragment, and
deduplicate preserving first-seen order.  No block found gives `[]`. -/
def marketListOf (text : List Char) : List String :=
  match findMarketBlock text with
  | none => []
  | some block =>
    dedupFirst
      (((splitMarkers block).filter
          (fun m => stripL m ≠ [] && decide (3 < m.length))).map cleanMarketEntry)

/-- The market pipeline written stage by stage as the spec words it, with
the discard step amended to read the raw fragment: split on numeric
markers, discard fragments that are empty after trimming or whose raw
(untrimmed) length is 3 characters or fewer, then trim each kept entry,
then remove exact duplicates preserving first-seen order. -/
def marketsSpecRawLen (text : List Char) : List String :=
  match findMarketBlock text with
  | none => []
  | some block =>
    let fragments := splitMarkers block
    let kept := fragments.filter (fun m => stripL m ≠ [] && decide (3 < m.length))
    let trimmed := kept.map cleanMarketEntry
    dedupFirst trimmed

/-- The market pipeline in the spec's literal stage order — split, trim
each entry, discard entries that are empty or of 3 or fewer characters
after trimming, deduplicate — used to compare against the code's order. -/
def marketsSpecTrimFirst (text : List Char) : List String :=
  match findMarketBlock text with
  | none => []
  | some block =>
    let trimmed := (splitMarkers block).map cleanMarketEntry
    let kept := trimmed.filter (fun m => m ≠ "" && decide (3 < m.length))
    dedupFirst kept

/-- The result dictionary of `parse_text_to_json`. -/
structure ParseResult where
  covered_markets : List String
  price_data : List PriceRow
deriving DecidableEq, Repr

/-- Embedding of `parse_text_to_json(raw_text)`: the market extraction plus
the category-tracking line loop over `raw_text.split('\n')`, starting from
the `"UNKNOWN"` category sentinel and an empty row list. -/
def parse_text_to_json (rawText : List Char) : ParseResult :=
  let lines := rawText.splitOn '\n'
  { covered_markets := marketListOf rawText
    price_data := (processLines { currentCategory := "UNKNOWN", rows := [] } lines).rows }

/-! Helper lemmas. -/

theorem toList_asString (l : List Char) : (List.asString l).toList = l := by
  simp [List.asString, String.toList]

theorem dropWhile_rdropWhile_dropWhile (p : Char → Bool) (l : List Char) :
    List.dropWhile p (List.rdropWhile p (List.dropWhile p l)) =
      List.rdropWhile p (List.dropWhile p l) := by
  cases hS : List.rdropWhile p (List.dropWhile p l) with
  | nil => simp
  | cons c t =>
    obtain ⟨s, hs⟩ := hS ▸ List.rdropWhile_prefix p (List.dropWhile p l)
    have hne : List.dropWhile p l ≠ [] := by
      rw [← hs]; simp
    have hhead : (List.dropWhile p l).head hne = c := by
      simp [← hs]
    have hpc : p c = false := by
      have h := List.head_dropWhile_not p l hne
      rwa [hhead] at h
    simp [List.dropWhile_cons, hpc]

/-- Python `strip` is idempotent. -/
theorem stripL_idem (l : List Char) : stripL (stripL l) = stripL l := by
  unfold stripL
  rw [dropWhile_rdropWhile_dropWhile, List.rdropWhile_idempotent]

/-- `parse_smart_row` only depends on the stripped line, so feeding it the
already-stripped line (as the line loop does) changes nothing. -/
theorem parse_smart_row_stripL (l : List Char) (c : String) :
    parse_smart_row (stripL l) c = parse_smart_row l c := by
  unfold parse_smart_row
  rw [stripL_idem]

theorem rawNameOf_stripL (l : List Char) : rawNameOf (stripL l) = rawNameOf l := by
  unfold rawNameOf
  rw [stripL_idem]

/-- A parsed row needs a nonempty stripped line (the empty line has no
trailing price token). -/
theorem parse_smart_row_ne_of_nil {l : List Char} {c : String}
    (h : stripL l = []) : parse_smart_row l c = none := by
  unfold parse_smart_row
  rw [h]
  rfl

theorem sameKey_iff {a b : PriceRow} : sameKey a b = true ↔ keyOf a = keyOf b := by
  simp [sameKey, keyOf, Prod.ext_iff, and_assoc]

theorem sameKey_comm (a b : PriceRow) : sameKey a b = sameKey b a := by
  simp only [sameKey]
  by_cases h1 : a.category = b.category <;>
    by_cases h2 : a.commodity = b.commodity <;>
      by_cases h3 : a.origin = b.origin <;>
        simp [h1, h2, h3, eq_comm]

/-- Every row of a merged list either shares its key with a previous row or
is the new row itself. -/
theorem mem_mergeRow {rows : List PriceRow} {row x : PriceRow}
    (hx : x ∈ mergeRow rows row) :
    (∃ y ∈ rows, keyOf x = keyOf y) ∨ x = row := by
  induction rows with
  | nil =>
    simp only [mergeRow, List.mem_singleton] at hx
    exact Or.inr hx
  | cons e rest ih =>
    simp only [mergeRow] at hx
    split at hx
    · rcases List.mem_cons.mp hx with h | h
      · refine Or.inl ⟨e, List.mem_cons_self e rest, ?_⟩
        subst h
        split <;> simp [keyOf]
      · exact Or.inl ⟨x, List.mem_cons_of_mem e h, rfl⟩
    · rcases List.mem_cons.mp hx with h | h
      · exact Or.inl ⟨e, List.mem_cons_self e rest, by rw [h]⟩
      · rcases ih h with ⟨y, hy, hk⟩ | h'
        · exact Or.inl ⟨y, List.mem_cons_of_mem e hy, hk⟩
        · exact Or.inr h'

/-- The merge step preserves pairwise distinctness of the dedup keys. -/
theorem mergeRow_pairwise {rows : List PriceRow} (row : PriceRow)
    (h : rows.Pairwise (fun a b => keyOf a ≠ keyOf b)) :
    (mergeRow rows row).Pairwise (fun a b => keyOf a ≠ keyOf b) := by
  induction rows with
  | nil => simp [mergeRow]
  | cons e rest ih =>
    rcases List.pairwise_cons.mp h with ⟨he, hrest⟩
    simp only [mergeRow]
    split
    · rename_i hkey
      refine List.pairwise_cons.mpr ⟨?_, hrest⟩
      intro y hy
      have : keyOf (if e.price = none ∧ row.price ≠ none
          then { e with price := row.price } else e) = keyOf e := by
        split <;> simp [keyOf]
      rw [this]
      exact he y hy
    · rename_i hkey
      refine List.pairwise_cons.mpr ⟨?_, ih hrest⟩
      intro y hy
      rcases mem_mergeRow hy with ⟨z, hz, hk⟩ | h'
      · rw [hk]
        exact he z hz
      · subst h'
        intro hcon
        exact hkey (sameKey_iff.mpr hcon)

/-- One loop iteration preserves pairwise distinctness of the dedup keys. -/
theorem processLine_pairwise (st : ParseState) (line : List Char)
    (h : st.rows.Pairwise (fun a b => keyOf a ≠ keyOf b)) :
    (processLine st line).rows.Pairwise (fun a b => keyOf a ≠ keyOf b) := by
  unfold processLine
  split
  · exact h
  · split
    · exact h
    · split
      · exact h
      · split
        · split
          · exact mergeRow_pairwise _ h
          · exact h
        · exact h

theorem processLines_pairwise (lines : List (List Char)) (st : ParseState)
    (h : st.rows.Pairwise (fun a b => keyOf a ≠ keyOf b)) :
    (processLines st lines).rows.Pairwise (fun a b => keyOf a ≠ keyOf b) := by
  induction lines generalizing st with
  | nil => exact h
  | cons l rest ih => exact ih (processLine st l) (processLine_pairwise st l h)

/-! Claim theorems. -/

/-- C1: for every input text, in the resulting `price_data` list no two
`PriceRow` entries share the same `(category, commodity, origin)` triple —
the merge step of the line loop enforces this by construction. -/
theorem price_data_keys_unique (rawText : List Char) :
    (parse_text_to_json rawText).price_data.Pairwise
      (fun a b => keyOf a ≠ keyOf b) := by
  unfold parse_text_to_json
  exact processLines_pairwise _ _ (by simp)

/-- C10: when a new row matches an already-accepted row on
`(category, commodity, origin)`, the merge rewrites exactly the matched
row's price field — from absent to the new row's present price, otherwise
leaving it as is — while the matched row's category, commodity, origin and
unit, the rows before the match, and the rows after it are all returned
unchanged, and the new row (its unit included) is dropped. -/
theorem mergeRow_frame (pre post : List PriceRow) (e row : PriceRow)
    (hpre : ∀ x ∈ pre, sameKey x row = false)
    (he : sameKey e row = true) :
    mergeRow (pre ++ e :: post) row =
      pre ++ ({ e with price := if e.price = none ∧ row.price ≠ none
                  then row.price else e.price } :: post) := by
  induction pre with
  | nil =>
    simp only [List.nil_append, mergeRow, he, if_true]
    split
    · rfl
    · rename_i hcond
      simp [if_neg hcond]
  | cons x pre' ih =>
    have hx : sameKey x row = false := hpre x (List.mem_cons_self x pre')
    have ih' := ih (fun y hy => hpre y (List.mem_cons_of_mem x hy))
    simp only [List.cons_append, mergeRow, hx, Bool.false_eq_true, if_false,
      List.append_eq]
    rw [ih']

/-- Witness for C10 at a concrete state: the price flows from absent to
`some 500`, the existing row's `kg` unit survives, the new row's absent
unit is discarded, and the unrelated first row is untouched. -/
theorem mergeRow_frame_witness :
    mergeRow
        [{ category := "SPICES", commodity := "Ginger", origin := "Local",
           unit := none, price := some 100 },
         { category := "FRUITS", commodity := "Apple", origin := "Local",
           unit := some "kg", price := none }]
        { category := "FRUITS", commodity := "Apple", origin := "Local",
          unit := none, price := some 500 } =
      [{ category := "SPICES", commodity := "Ginger", origin := "Local",
         unit := none, price := some 100 },
       { category := "FRUITS", commodity := "Apple", origin := "Local",
         unit := some "kg", price := some 500 }] := by
  have h := mergeRow_frame
    [{ category := "SPICES", commodity := "Ginger", origin := "Local",
       unit := none, price := some 100 }] []
    { category := "FRUITS", commodity := "Apple", origin := "Local",
      unit := some "kg", price := none }
    { category := "FRUITS", commodity := "Apple", origin := "Local",
      unit := none, price := some 500 }
    (by decide) (by decide)
  simpa using h

/-- A data line (no category label, no noise marker, category established)
that parses to a row contributes exactly a merge of that row. -/
theorem processLine_data (st : ParseState) (l : List Char) (r : PriceRow)
    (hnc : findCategory (stripL l) = none)
    (hnn : isNoiseLine (stripL l) = false)
    (hcat : st.currentCategory ≠ "UNKNOWN")
    (h : parse_smart_row l st.currentCategory = some r) :
    processLine st l = { st with rows := mergeRow st.rows r } := by
  have hne : stripL l ≠ [] := by
    intro hnil
    rw [parse_smart_row_ne_of_nil hnil] at h
    exact Option.noConfusion h
  unfold processLine
  rw [if_neg hne]
  simp only [hnc, hnn, Bool.false_eq_true, if_false, if_pos hcat,
    parse_smart_row_stripL, h]

/-- C2: if two source lines parse (under the active category) to rows with
the same `(category, commodity, origin)` and exactly one of them carries a
present price, then folding the two lines — in either order — produces a
single merged row whose price is that present value. -/
theorem merge_price_monotonic (cat : String) (l1 l2 : List Char)
    (r1 r2 : PriceRow) (p : Nat)
    (hcat : cat ≠ "UNKNOWN")
    (hnc1 : findCategory (stripL l1) = none)
    (hnc2 : findCategory (stripL l2) = none)
    (hnn1 : isNoiseLine (stripL l1) = false)
    (hnn2 : isNoiseLine (stripL l2) = false)
    (h1 : parse_smart_row l1 cat = some r1)
    (h2 : parse_smart_row l2 cat = some r2)
    (hk : sameKey r1 r2 = true)
    (hp : (r1.price = some p ∧ r2.price = none) ∨
          (r1.price = none ∧ r2.price = some p)) :
    (∃ r, (processLines { currentCategory := cat, rows := [] } [l1, l2]).rows
        = [r] ∧ r.price = some p) ∧
    (∃ r, (processLines { currentCategory := cat, rows := [] } [l2, l1]).rows
        = [r] ∧ r.price = some p) := by
  have hk' : sameKey r2 r1 = true := by rw [sameKey_comm]; exact hk
  constructor
  · refine ⟨if r1.price = none ∧ r2.price ≠ none
        then { r1 with price := r2.price } else r1, ?_, ?_⟩
    · simp only [processLines, List.foldl_cons, List.foldl_nil]
      rw [processLine_data _ _ _ hnc1 hnn1 hcat h1]
      rw [processLine_data _ _ _ hnc2 hnn2 hcat h2]
      simp [mergeRow, hk]
    · rcases hp with ⟨ha, hb⟩ | ⟨ha, hb⟩
      · rw [if_neg (by simp [ha])]
        exact ha
      · rw [if_pos ⟨ha, by simp [hb]⟩]
        exact hb
  · refine ⟨if r2.price = none ∧ r1.price ≠ none
        then { r2 with price := r1.price } else r2, ?_, ?_⟩
    · simp only [processLines, List.foldl_cons, List.foldl_nil]
      rw [processLine_data _ _ _ hnc2 hnn2 hcat h2]
      rw [processLine_data _ _ _ hnc1 hnn1 hcat h1]
      simp [mergeRow, hk']
    · rcases hp with ⟨ha, hb⟩ | ⟨ha, hb⟩
      · rw [if_pos ⟨hb, by simp [ha]⟩]
        exact ha
      · rw [if_neg (by simp [hb])]
        exact hb

/-- Witness for C2: "Apple 10.00" and "Apple -" under `FRUITS` merge, in
either order, to a single row priced 10.00 (1000 centavos). -/
theorem merge_price_monotonic_witness :
    (∃ r, (processLines { currentCategory := "FRUITS", rows := [] }
        ["Apple 10.00".toList, "Apple -".toList]).rows = [r] ∧
        r.price = some 1000) ∧
    (∃ r, (processLines { currentCategory := "FRUITS", rows := [] }
        ["Apple -".toList, "Apple 10.00".toList]).rows = [r] ∧
        r.price = some 1000) :=
  merge_price_monotonic "FRUITS" "Apple 10.00".toList "Apple -".toList
    { category := "FRUITS", commodity := "Apple", origin := "Local",
      unit := none, price := some 1000 }
    { category := "FRUITS", commodity := "Apple", origin := "Local",
      unit := none, price := none }
    1000 (by decide) (by decide) (by decide) (by decide) (by decide)
    (by decide) (by decide) (by decide) (Or.inl ⟨rfl, rfl⟩)

/-- C7 (amended): a non-empty line that contains a noise marker and is not
recognized as a category header is consumed without any state change —
the category check runs first in the loop, so a line that also contains a
category label updates the category instead (see the counterexample). -/
theorem noise_line_no_state_change (st : ParseState) (line : List Char)
    (hnoise : isNoiseLine (stripL line) = true)
    (hnocat : findCategory (stripL line) = none) :
    processLine st line = st := by
  unfold processLine
  split
  · rfl
  · simp only [hnocat, hnoise, if_true]

/-- Counterexample for C7 as stated: the line `"FRUITS Page"` contains the
noise marker `"Page"`, yet processing it from category `"SPICES"` changes
the current category to `"FRUITS"` (the category check precedes the noise
check). -/
theorem noise_line_cex :
    isNoiseLine (stripL "FRUITS Page".toList) = true ∧
    (processLine { currentCategory := "SPICES", rows := [] }
        "FRUITS Page".toList).currentCategory = "FRUITS" ∧
    ("FRUITS" : String) ≠ "SPICES" := by
  refine ⟨by decide, ?_, by decide⟩
  decide

/-- Witness for C7: a `Source:` line leaves the state untouched. -/
theorem noise_line_no_state_change_witness :
    processLine { currentCategory := "SPICES", rows := [] }
        "Source: DA-AMAS".toList =
      { currentCategory := "SPICES", rows := [] } :=
  noise_line_no_state_change _ _ (by decide) (by decide)

/-- C5: every parsed row's origin is populated with `"Imported"` exactly
when the raw name segment or the category label contains `"IMPORTED"`
(case-insensitively), and with `"Local"` otherwise. -/
theorem origin_populated (line : List Char) (cat : String) (row : PriceRow)
    (h : parse_smart_row line cat = some row) :
    (row.origin = "Imported" ∨ row.origin = "Local") ∧
    (row.origin = "Imported" ↔
      (containsSub (upperL (rawNameOf line).toList) "IMPORTED".toList ||
       containsSub (upperL cat.toList) "IMPORTED".toList) = true) := by
  unfold parse_smart_row at h
  unfold rawNameOf
  cases hf : findTok none [] (stripL line) with
  | none =>
    rw [hf] at h
    exact Option.noConfusion h
  | some pr =>
    obtain ⟨name, tok⟩ := pr
    rw [hf] at h
    simp only at h ⊢
    split at h
    · exact Option.noConfusion h
    · have horigin : row.origin =
          determine_origin (stripL name).asString cat := by
        cases h
        rfl
      rw [horigin]
      unfold determine_origin
      simp only [toList_asString]
      split
      · rename_i hc
        exact ⟨Or.inl rfl, iff_of_true rfl hc⟩
      · rename_i hc
        exact ⟨Or.inr rfl, iff_of_false (by decide) hc⟩

/-- Witness for C5: the row of `"Imported Garlic $n/a$"` under `SPICES` is
marked `Imported`, as the raw segment carries the keyword. -/
theorem origin_populated_witness :
    ((⟨"SPICES", "Garlic", "Imported", none, none⟩ : PriceRow).origin
        = "Imported" ∨
      (⟨"SPICES", "Garlic", "Imported", none, none⟩ : PriceRow).origin
        = "Local") ∧
    ((⟨"SPICES", "Garlic", "Imported", none, none⟩ : PriceRow).origin
        = "Imported" ↔
      (containsSub (upperL (rawNameOf "Imported Garlic $n/a$".toList).toList)
          "IMPORTED".toList ||
       containsSub (upperL ("SPICES" : String).toList)
          "IMPORTED".toList) = true) :=
  origin_populated "Imported Garlic $n/a$".toList "SPICES"
    ⟨"SPICES", "Garlic", "Imported", none, none⟩ (by decide)

/-- C3 (amended): Scenario A — parsing `"RICE\nWell Milled Rice 45.50\n"`
with category `"LOCAL COMMERCIAL RICE"` active yields exactly one row with
category `"COMMERCIAL RICE"`, commodity `"Well Milled Rice"`, origin
`"Local"`, price 45.50 (4550 centavos) — and an *absent* unit:
`determine_unit` tests its keyword sets against the line text, and
`"well milled rice"` contains none of them. -/
theorem scenario_a :
    (processLines { currentCategory := "LOCAL COMMERCIAL RICE", rows := [] }
        ("RICE\nWell Milled Rice 45.50\n".toList.splitOn '\n')).rows =
      [⟨"COMMERCIAL RICE", "Well Milled Rice", "Local", none, some 4550⟩] := by
  decide

/-- Counterexample for C3 as stated: the resulting row does not carry
unit `"kg"` (its unit field is absent). -/
theorem scenario_a_cex :
    (processLines { currentCategory := "LOCAL COMMERCIAL RICE", rows := [] }
        ("RICE\nWell Milled Rice 45.50\n".toList.splitOn '\n')).rows ≠
      [⟨"COMMERCIAL RICE", "Well Milled Rice", "Local", some "kg", some 4550⟩] := by
  decide

/-- Projection helper for reading the price field off a built row. -/
theorem mk_price (cat com org : String) (u : Option String) (p : Option Nat) :
    (PriceRow.mk cat com org u p).price = p := rfl

/-- C4 (amended): on a line whose trailing price token is a bare dash or
the `$n/a$` marker, any row the parser yields has an absent price, and the
only way the parser yields no row at all is the short-normalized-name
rejection — never the sentinel itself. -/
theorem sentinel_price_absent (line : List Char) (cat : String)
    (name tok : List Char)
    (h : findTok none [] (stripL line) = some (name, tok))
    (hs : isSentinel tok = true) :
    (∀ row, parse_smart_row line cat = some row → row.price = none) ∧
    (parse_smart_row line cat = none →
      (normalize_commodity_name (stripL name).asString cat).length < 2) := by
  have htok : tok = ['-'] ∨ tok = "$n/a$".toList := by
    simpa [isSentinel] using hs
  unfold parse_smart_row
  rw [h]
  simp only
  rcases htok with h1 | h1 <;> subst h1 <;>
    constructor
  · intro row hrow
    split at hrow
    · exact Option.noConfusion hrow
    · cases hrow
      rw [mk_price]
      decide
  · intro hnone
    split at hnone
    · rename_i hlt
      exact hlt
    · exact absurd hnone (by simp)
  · intro row hrow
    split at hrow
    · exact Option.noConfusion hrow
    · cases hrow
      rw [mk_price]
      decide
  · intro hnone
    split at hnone
    · rename_i hlt
      exact hlt
    · exact absurd hnone (by simp)

/-- Counterexample for C4 as stated: the line `"-"` has the bare dash as
its trailing price token, yet the parser yields no row at all (the raw
name segment is empty, so the normalized name is shorter than 2). -/
theorem sentinel_price_absent_cex :
    findTok none [] (stripL "-".toList) = some ([], ['-']) ∧
    parse_smart_row "-".toList "FRUITS" = none := by
  exact ⟨by decide, by decide⟩

/-- Witness for C4 on `"Apple -"` under `FRUITS`. -/
theorem sentinel_price_absent_witness :
    (∀ row, parse_smart_row "Apple -".toList "FRUITS" = some row →
      row.price = none) ∧
    (parse_smart_row "Apple -".toList "FRUITS" = none →
      (normalize_commodity_name (stripL "Apple ".toList).asString
        "FRUITS").length < 2) :=
  sentinel_price_absent "Apple -".toList "FRUITS" "Apple ".toList ['-']
    (by decide) (by decide)

/-- C6 (amended): the covered-markets result is the split/discard/trim/
dedup pipeline with the too-short test (3 characters or fewer) applied to
the raw fragment before trimming, and it is empty whenever no market block
is found. -/
theorem market_pipeline (text : List Char) :
    (parse_text_to_json text).covered_markets = marketsSpecRawLen text ∧
    (findMarketBlock text = none →
      (parse_text_to_json text).covered_markets = []) := by
  constructor
  · show marketListOf text = marketsSpecRawLen text
    unfold marketListOf marketsSpecRawLen
    cases findMarketBlock text <;> rfl
  · intro hnone
    show marketListOf text = []
    unfold marketListOf
    rw [hnone]

/-- Counterexample for C6 as stated: on
`"Covered markets: 1. Market A 2. ab  Page"` the code keeps the entry
`"ab"` (raw fragment `"ab  "` is 4 characters), although its trimmed name
has 3 or fewer characters; the spec's literal trim-then-discard order
would drop it. -/
theorem market_pipeline_cex :
    (parse_text_to_json
        "Covered markets: 1. Market A 2. ab  Page".toList).covered_markets
      = ["Market A", "ab"] ∧
    marketsSpecTrimFirst "Covered markets: 1. Market A 2. ab  Page".toList
      = ["Market A"] ∧
    ¬ 3 < ("ab" : String).length := by
  exact ⟨by decide, by decide, by decide⟩

/-- Witness for C6 on a text with no market block. -/
theorem market_pipeline_witness :
    (parse_text_to_json "no list here".toList).covered_markets = [] :=
  (market_pipeline "no list here".toList).2 (by decide)

/-- Projection helper for reading the commodity field off a built row. -/
theorem mk_commodity (cat com org : String) (u : Option String)
    (p : Option Nat) : (PriceRow.mk cat com org u p).commodity = com := rfl

/-- A successfully parsed row passed the minimum-length guard. -/
theorem parse_smart_row_commodity {line : List Char} {cat : String}
    {row : PriceRow} (h : parse_smart_row line cat = some row) :
    2 ≤ row.commodity.length := by
  unfold parse_smart_row at h
  cases hf : findTok none [] (stripL line) with
  | none =>
    rw [hf] at h
    exact Option.noConfusion h
  | some pr =>
    obtain ⟨name, tok⟩ := pr
    rw [hf] at h
    simp only at h
    split at h
    · exact Option.noConfusion h
    · rename_i hge
      cases h
      rw [mk_commodity]
      omega

/-- One loop iteration preserves the minimum commodity length of all rows
(a merged row keeps its commodity; an appended row passed the guard). -/
theorem processLine_commodity (st : ParseState) (line : List Char)
    (h : ∀ r ∈ st.rows, 2 ≤ r.commodity.length) :
    ∀ r ∈ (processLine st line).rows, 2 ≤ r.commodity.length := by
  unfold processLine
  split
  · exact h
  · split
    · exact h
    · split
      · exact h
      · split
        · split
          · rename_i row hrow
            intro r hr
            rcases mem_mergeRow hr with ⟨y, hy, hk⟩ | rfl
            · have hc : r.commodity = y.commodity := by
                have := congrArg (fun k => k.2.1) hk
                simpa [keyOf] using this
              rw [hc]
              exact h y hy
            · exact parse_smart_row_commodity hrow
          · exact h
        · exact h

theorem processLines_commodity (lines : List (List Char)) (st : ParseState)
    (h : ∀ r ∈ st.rows, 2 ≤ r.commodity.length) :
    ∀ r ∈ (processLines st lines).rows, 2 ≤ r.commodity.length := by
  induction lines generalizing st with
  | nil => exact h
  | cons l rest ih => exact ih (processLine st l) (processLine_commodity st l h)

/-- C8: every `PriceRow` in the result has a commodity of at least 2
characters after normalization, and a line whose normalized name is
shorter than 2 characters yields no row at all. -/
theorem commodity_min_length (rawText : List Char) :
    (∀ row ∈ (parse_text_to_json rawText).price_data,
      2 ≤ row.commodity.length) ∧
    (∀ (line : List Char) (cat : String),
      (normalize_commodity_name (rawNameOf line) cat).length < 2 →
      parse_smart_row line cat = none) := by
  constructor
  · unfold parse_text_to_json
    exact processLines_commodity _ _ (by simp)
  · intro line cat hshort
    unfold rawNameOf at hshort
    unfold parse_smart_row
    cases hf : findTok none [] (stripL line) with
    | none => rfl
    | some pr =>
      obtain ⟨name, tok⟩ := pr
      rw [hf] at hshort
      simp only at hshort ⊢
      rw [if_pos hshort]

/-- Witness for C8: the `Egg` row of a concrete document satisfies the
length bound, and the line `"x 1.00"` (one-character name) yields no row. -/
theorem commodity_min_length_witness :
    2 ≤ (PriceRow.mk "POULTRY PRODUCTS" "Egg" "Local" none
        (some 500)).commodity.length ∧
    parse_smart_row "x 1.00".toList "FRUITS" = none :=
  ⟨(commodity_min_length "POULTRY PRODUCTS\nEgg 5.00".toList).1
      ⟨"POULTRY PRODUCTS", "Egg", "Local", none, some 500⟩ (by decide),
   (commodity_min_length [] ).2 "x 1.00".toList "FRUITS" (by decide)⟩

/-- Prefixes of `takeWhile` splits: a list all of whose elements satisfy
the predicate passes through `takeWhile` over an append. -/
theorem takeWhile_append_all {p : Char → Bool} {l : List Char}
    (r : List Char) (h : l.all p = true) :
    (l ++ r).takeWhile p = l ++ r.takeWhile p := by
  induction l with
  | nil => simp
  | cons c t ih =>
    simp only [List.all_cons, Bool.and_eq_true] at h
    simp [List.takeWhile_cons, h.1, ih h.2]

/-- The token returned by the leftmost search satisfies the token shape. -/
theorem findTok_isToken : ∀ (prev : Option Char) (acc rest : List Char)
    {name tok : List Char}, findTok prev acc rest = some (name, tok) →
    isToken tok = true := by
  intro prev acc rest
  induction rest generalizing prev acc with
  | nil =>
    intro name tok h
    unfold findTok at h
    split at h
    · rename_i hc
      cases h
      simp only [Bool.and_eq_true] at hc
      exact hc.2
    · exact Option.noConfusion h
  | cons c r ih =>
    intro name tok h
    unfold findTok at h
    split at h
    · rename_i hc
      cases h
      simp only [Bool.and_eq_true] at hc
      exact hc.2
    · exact ih (some c) (c :: acc) h

/-- The comma-filtered digit groups of `\d{1,3}(?:,\d{3})*` are digits. -/
theorem tailGroups_filter : ∀ (g : List Char), tailGroups g = true →
    ((g.filter (fun c => decide (c ≠ ','))).all Char.isDigit) = true := by
  intro g
  induction g using tailGroups.induct with
  | case1 => intro _; rfl
  | case2 s a b c rest ih =>
    intro h
    simp only [tailGroups, Bool.and_eq_true, decide_eq_true_eq] at h
    obtain ⟨⟨⟨⟨hs, ha⟩, hb⟩, hc⟩, hrest⟩ := h
    subst hs
    have ha' : (a ≠ ',') := fun hcon => by
      rw [hcon] at ha
      exact absurd ha (by decide)
    have hb' : (b ≠ ',') := fun hcon => by
      rw [hcon] at hb
      exact absurd hb (by decide)
    have hc' : (c ≠ ',') := fun hcon => by
      rw [hcon] at hc
      exact absurd hc (by decide)
    have hstep : List.filter (fun x => decide (x ≠ ','))
        (',' :: a :: b :: c :: rest) =
        a :: b :: c :: List.filter (fun x => decide (x ≠ ',')) rest := by
      simp [List.filter_cons, ha', hb', hc']
    rw [hstep]
    simp only [List.all_cons, ha, hb, hc, Bool.true_and]
    exact ih hrest
  | case3 t h1 h2 =>
    intro h
    rcases t with _ | ⟨x, _ | ⟨y, _ | ⟨z, _ | ⟨w, t4⟩⟩⟩⟩
    · exact absurd rfl h1
    · rw [show tailGroups [x] = false from rfl] at h
      exact Bool.noConfusion h
    · rw [show tailGroups [x, y] = false from rfl] at h
      exact Bool.noConfusion h
    · rw [show tailGroups [x, y, z] = false from rfl] at h
      exact Bool.noConfusion h
    · exact (h2 x y z w t4 rfl).elim

/-- Evaluation of the centavo conversion on the exact shape the matcher
guarantees: nonempty digits, a dot, two digits. -/
theorem parseCents_shape (ds : List Char) (a b : Char)
    (hds : ds.all Char.isDigit = true) (hne : ds ≠ [])
    (ha : a.isDigit = true) (hb : b.isDigit = true) :
    parseCents (ds ++ ['.', a, b]) =
      some (digitsToNat ds * 100 + (a.toNat - '0'.toNat) * 10 +
        (b.toNat - '0'.toNat)) := by
  have htw : (ds ++ ['.', a, b]).takeWhile Char.isDigit = ds := by
    rw [takeWhile_append_all _ hds]
    simp [List.takeWhile_cons]
  unfold parseCents
  simp only [htw, List.drop_left]
  rw [if_pos]
  simp [hne, ha, hb]

/-- C9: every trailing-price token that is not one of the two sentinels
converts successfully to a price value (the conversion-failure branch is
unreachable), and a line carrying a price token is only ever rejected by
the short-name guard — a conversion failure could at worst make the price
absent, never abort the row. -/
theorem price_conversion_total (line : List Char) (cat : String)
    (name tok : List Char)
    (h : findTok none [] (stripL line) = some (name, tok))
    (hns : isSentinel tok = false) :
    (∃ n, parseCents (tok.filter (fun c => decide (c ≠ ','))) = some n) ∧
    (parse_smart_row line cat = none →
      (normalize_commodity_name (stripL name).asString cat).length < 2) := by
  constructor
  · have htok : isToken tok = true := findTok_isToken none [] (stripL line) h
    have hnum : isPriceNumToken tok = true := by
      unfold isToken at htok
      simp only [Bool.or_eq_true, decide_eq_true_eq] at htok
      rcases htok with (h' | h') | h'
      · exact h'
      · subst h'
        exact absurd hns (by decide)
      · subst h'
        exact absurd hns (by decide)
    unfold isPriceNumToken at hnum
    simp only at hnum
    split at hnum
    · rename_i c a b heq
      rw [Bool.and_eq_true, Bool.and_eq_true, Bool.and_eq_true] at hnum
      obtain ⟨⟨⟨hdot, ha⟩, hb⟩, hg⟩ := hnum
      rw [decide_eq_true_eq] at hdot
      subst hdot
      have hipt : tok = tok.takeWhile (fun c => c.isDigit || c = ',') ++
          ['.', a, b] := by
        conv_lhs => rw [← List.take_append_drop
          (tok.takeWhile (fun c => c.isDigit || c = ',')).length tok]
        rw [← List.prefix_iff_eq_take.mp (List.takeWhile_prefix _), heq]
      unfold groupedDigits at hg
      simp only [Bool.and_eq_true, decide_eq_true_eq] at hg
      obtain ⟨⟨h1, _⟩, htg⟩ := hg
      have hipsplit : tok.takeWhile (fun c => c.isDigit || c = ',') =
          (tok.takeWhile (fun c => c.isDigit || c = ',')).takeWhile Char.isDigit
            ++ (tok.takeWhile (fun c => c.isDigit || c = ',')).drop
              ((tok.takeWhile (fun c => c.isDigit || c = ',')).takeWhile
                Char.isDigit).length := by
        conv_lhs => rw [← List.take_append_drop
          ((tok.takeWhile (fun c => c.isDigit || c = ',')).takeWhile
            Char.isDigit).length (tok.takeWhile (fun c => c.isDigit || c = ','))]
        rw [← List.prefix_iff_eq_take.mp (List.takeWhile_prefix _)]
      set D := (tok.takeWhile (fun c => c.isDigit || c = ',')).takeWhile
        Char.isDigit with hD
      set G := (tok.takeWhile (fun c => c.isDigit || c = ',')).drop D.length
        with hG
      have hDall : D.all Char.isDigit = true := List.all_takeWhile
      have hDf : D.filter (fun c => decide (c ≠ ',')) = D := by
        rw [List.filter_eq_self]
        intro x hx
        have hxd := List.all_eq_true.mp hDall x hx
        rw [decide_eq_true_eq]
        intro hcon
        rw [hcon] at hxd
        exact absurd hxd (by decide)
      have hGall : ((G.filter (fun c => decide (c ≠ ','))).all Char.isDigit)
          = true := tailGroups_filter G htg
      have ha' : a ≠ ',' := fun hcon => by
        rw [hcon] at ha
        exact absurd ha (by decide)
      have hb' : b ≠ ',' := fun hcon => by
        rw [hcon] at hb
        exact absurd hb (by decide)
      have hfilter : tok.filter (fun c => decide (c ≠ ',')) =
          (D ++ G.filter (fun c => decide (c ≠ ','))) ++ ['.', a, b] := by
        conv_lhs => rw [hipt, hipsplit]
        simp [List.filter_append, hDf, List.filter_cons, ha', hb']
        intro x hx
        have hxd := List.all_eq_true.mp hDall x hx
        intro hcon
        rw [hcon] at hxd
        exact absurd hxd (by decide)
      have hEall : ((D ++ G.filter (fun c => decide (c ≠ ','))).all
          Char.isDigit) = true := by
        rw [List.all_append, hDall, hGall]
        rfl
      have hEne : D ++ G.filter (fun c => decide (c ≠ ',')) ≠ [] := by
        intro hcon
        have := congrArg List.length hcon
        simp only [List.length_append, List.length_nil] at this
        omega
      refine ⟨digitsToNat (D ++ G.filter (fun c => decide (c ≠ ','))) * 100 +
        (a.toNat - '0'.toNat) * 10 + (b.toNat - '0'.toNat), ?_⟩
      rw [hfilter]
      exact parseCents_shape _ a b hEall hEne ha hb
    · exact absurd hnum (by simp)
  · intro hnone
    unfold parse_smart_row at hnone
    rw [h] at hnone
    simp only at hnone
    split at hnone
    · rename_i hlt
      exact hlt
    · exact absurd hnone (by simp)

/-- Witness for C9 on the token `1,234.56` of a concrete line. -/
theorem price_conversion_total_witness :
    (∃ n, parseCents ("1,234.56".toList.filter (fun c => decide (c ≠ ','))) =
      some n) ∧
    (parse_smart_row "Rice 1,234.56".toList "FRUITS" = none →
      (normalize_commodity_name (stripL "Rice ".toList).asString
        "FRUITS").length < 2) :=
  price_conversion_total "Rice 1,234.56".toList "FRUITS" "Rice ".toList
    "1,234.56".toList (by decide) (by decide)

end DAPriceParser
